import Mathlib

/-
Verification of core components of the wtx networking toolkit.

Shallow embedding conventions:
* bytes are modelled as `List Nat` (each element an octet value);
* Rust `usize` arithmetic is modelled with `Nat` (subtraction sites that use
  `wrapping_sub` are noted where the source guarantees no underflow);
* fallible operations return `Except Err _`;
* async functions are modelled as pure functions consuming an explicit list of
  stream read results.
-/

set_option maxRecDepth 4096

namespace Wtx

/-- The error kinds of `crate::Error` that the verified components can produce.
Error payloads that the claims do not inspect are dropped. -/
inductive Err where
  /-- `crate::Error::UnexpectedValueFromBytes` -/
  | UnexpectedValueFromBytes
  /-- failure of `rest.try_into()` for the 4-byte md5 salt -/
  | TryIntoArrayFailure
  /-- failure of `_atoi` on a non-decimal field -/
  | InvalidDecimal
  /-- `crate::Error::NoInnerValue(field)`; the field name is an enum here to
  keep the embedding free of string literals -/
  | NoInnerValue (field : Nat)
  /-- `crate::Error::UnexpectedBufferState` -/
  | UnexpectedBufferState
  /-- `crate::Error::UnexpectedDatabaseMessage { received }` -/
  | UnexpectedDatabaseMessage (received : Nat)
  /-- `crate::Error::NoRecord` -/
  | NoRecord
  /-- the structured database error produced when an `ErrorResponse` message is
  parsed (`MessageTy::try_from` fails with the decoded server error) -/
  | StructuredDbError
  deriving DecidableEq, Repr

deriving instance DecidableEq for Except

/-- Tag for `NoInnerValue("iterations")`. -/
def fieldIterations : Nat := 0
/-- Tag for `NoInnerValue("nonce")`. -/
def fieldNonce : Nat := 1
/-- Tag for `NoInnerValue("salt")`. -/
def fieldSalt : Nat := 2
/-- Tag for `NoInnerValue("verifier")`. -/
def fieldVerifier : Nat := 3

/-! ## HTTP headers store (`src/wtx/src/http/headers.rs`) -/

namespace Http

/-- `Trailers`: how trailer headers are placed in the store. -/
inductive Trailers where
  /-- Does not have trailers -/
  | noTrailers
  /-- Trailers are arbitrarily placed inside the headers -/
  | mixed
  /-- All trailers are positioned at the end of the headers -/
  | tail (idx : Nat)
  deriving DecidableEq, Repr

/-- `HeaderParts`: the offsets table entry recorded for one header. -/
structure HeaderParts where
  header_begin : Nat
  header_end : Nat
  header_len : Nat
  header_name_end : Nat
  is_sensitive : Bool
  is_trailer : Bool
  deriving DecidableEq, Repr

/-- `Header<'any, V>`: a field of an HTTP request or response. -/
structure Header (V : Type) where
  is_sensitive : Bool
  is_trailer : Bool
  name : List Nat
  value : V
  deriving DecidableEq, Repr

/-- `Headers`: packed list of header pairs plus the parts table and the
trailer-topology tag. -/
structure Headers where
  bytes : List Nat
  headers_parts : List HeaderParts
  trailers : Trailers
  deriving DecidableEq, Repr

namespace Headers

/-- `Headers::new` -/
def new : Headers := ⟨[], [], Trailers.noTrailers⟩

/-- `Headers::bytes_len` -/
def bytes_len (h : Headers) : Nat := h.bytes.length

/-- `Headers::headers_len` -/
def headers_len (h : Headers) : Nat := h.headers_parts.length

/-- The effect of Rust `bytes.get(a..b).unwrap_or_default()`: the slice when
the range is valid, the empty slice otherwise. -/
def byteSlice (l : List Nat) (a b : Nat) : List Nat :=
  if a ≤ b ∧ b ≤ l.length then (l.take b).drop a else []

/-- `Headers::map`: materialize a `HeaderParts` entry as a borrowed header. -/
def mapParts (bytes : List Nat) (hp : HeaderParts) : Header (List Nat) :=
  { is_sensitive := hp.is_sensitive
    is_trailer := hp.is_trailer
    name := byteSlice bytes hp.header_begin hp.header_name_end
    value := byteSlice bytes hp.header_name_end hp.header_end }

/-- `Headers::iter`: stable insertion-order iteration. -/
def iter (h : Headers) : List (Header (List Nat)) :=
  h.headers_parts.map (mapParts h.bytes)

/-- `Headers::get_by_idx` -/
def get_by_idx (h : Headers) (idx : Nat) : Option (Header (List Nat)) :=
  (h.headers_parts.get? idx).map (mapParts h.bytes)

/-- `Headers::get_by_name`: `self.iter().find(|el| el.name == name)`. -/
def get_by_name (h : Headers) (name : List Nat) : Option (Header (List Nat)) :=
  h.iter.find? (fun el => el.name == name)

/-- `Headers::get_many_by_name`. The source zips the header iterator with the
result slots: `for (header, value) in self.iter().zip(&mut rslt)`, setting
slot `i` to header `i` whenever header `i`'s name occurs anywhere in `names`.
The const generic `N` array is modelled as a list. -/
def get_many_by_name (h : Headers) (names : List (List Nat)) :
    List (Option (Header (List Nat))) :=
  (List.range names.length).map fun i =>
    match h.iter.get? i with
    | some header => if names.any (fun n => n == header.name) then some header else none
    | none => none

/-- `Headers::manage_trailers` -/
def manage_trailers (is_trailer : Bool) (prev_len : Nat) (t : Trailers) : Trailers :=
  if is_trailer then
    match t with
    | Trailers.mixed => Trailers.mixed
    | Trailers.noTrailers => Trailers.tail prev_len
    | Trailers.tail idx => Trailers.tail idx
  else
    match t with
    | Trailers.mixed => Trailers.mixed
    | Trailers.tail _ => Trailers.mixed
    | Trailers.noTrailers => Trailers.noTrailers

/-- `Headers::push_from_iter`: append one header whose value is the
concatenation of byte slices. Allocation (`reserve`) cannot fail in the list
model, so the `crate::Result` wrapper is dropped; the claims only concern
successful pushes. -/
def push_from_iter (h : Headers) (hd : Header (List (List Nat))) : Headers :=
  let header_len := hd.name.length + (hd.value.map List.length).sum
  let header_begin := h.bytes.length
  let header_name_end := header_begin + hd.name.length
  let header_end := header_begin + header_len
  { bytes := h.bytes ++ hd.name ++ hd.value.flatten
    headers_parts := h.headers_parts ++
      [{ header_begin := header_begin
         header_end := header_end
         header_len := header_len
         header_name_end := header_name_end
         is_sensitive := hd.is_sensitive
         is_trailer := hd.is_trailer }]
    trailers := manage_trailers hd.is_trailer h.headers_parts.length h.trailers }

/-- The view of the header appended by `push_from_iter`, as produced by the
slicing in `Headers::map`. -/
def pushedView (hd : Header (List (List Nat))) : Header (List Nat) :=
  { is_sensitive := hd.is_sensitive
    is_trailer := hd.is_trailer
    name := hd.name
    value := hd.value.flatten }

/-- `Headers::push_from_fmt`: append one header whose value bytes are produced
by the formatting writer; the formatted output is taken as a byte list. -/
def push_from_fmt (h : Headers) (hd : Header (List Nat)) : Headers :=
  let header_begin := h.bytes.length
  let bytes := h.bytes ++ hd.name ++ hd.value
  { bytes := bytes
    headers_parts := h.headers_parts ++
      [{ header_begin := header_begin
         header_end := bytes.length
         header_len := bytes.length - header_begin
         header_name_end := header_begin + hd.name.length
         is_sensitive := hd.is_sensitive
         is_trailer := hd.is_trailer }]
    trailers := manage_trailers hd.is_trailer h.headers_parts.length h.trailers }

/-- `Headers::pop`: remove the last header, if any. In the source the byte
length is shrunk with `wrapping_sub` followed by `set_len`; for every store
built through the public API `header_len ≤ bytes.len()`, so truncation (take)
models it. -/
def pop (h : Headers) : Bool × Headers :=
  match h.headers_parts.getLast? with
  | none => (false, h)
  | some hp =>
    (true,
      { bytes := h.bytes.take (h.bytes.length - hp.header_len)
        headers_parts := h.headers_parts.dropLast
        trailers := h.trailers })

/-- Well-formedness of the parts table: every recorded range lies inside the
byte vector. This holds for every store reachable through the public API. -/
def wf (h : Headers) : Bool :=
  h.headers_parts.all fun hp =>
    hp.header_begin ≤ hp.header_name_end &&
    hp.header_name_end ≤ hp.header_end &&
    hp.header_end ≤ h.bytes.length

/-- One call of the public push API. -/
inductive PushCall where
  /-- a `push_from_iter` call -/
  | fromIter (hd : Header (List (List Nat)))
  /-- a `push_from_fmt` call (value already formatted to bytes) -/
  | fromFmt (hd : Header (List Nat))
  deriving DecidableEq, Repr

/-- The `is_trailer` flag carried by a push call. -/
def PushCall.flag : PushCall → Bool
  | PushCall.fromIter hd => hd.is_trailer
  | PushCall.fromFmt hd => hd.is_trailer

/-- Run one push call. -/
def applyPush (h : Headers) : PushCall → Headers
  | PushCall.fromIter hd => h.push_from_iter hd
  | PushCall.fromFmt hd => h.push_from_fmt hd

/-- Run a sequence of push calls. -/
def applyPushes (h : Headers) : List PushCall → Headers
  | [] => h
  | c :: cs => applyPushes (applyPush h c) cs

/-- The trailer topology determined by the list of `is_trailer` flags alone,
computed front-to-back: the classification the spec states for the store. -/
def trailerTopology : List Bool → Trailers
  | [] => Trailers.noTrailers
  | false :: fs =>
    match trailerTopology fs with
    | Trailers.noTrailers => Trailers.noTrailers
    | Trailers.mixed => Trailers.mixed
    | Trailers.tail k => Trailers.tail (k + 1)
  | true :: fs => if fs.all (fun b => b) then Trailers.tail 0 else Trailers.mixed

/-- The fold of `manage_trailers` over a flag list, starting at store length
`n`. -/
def manageFold : Trailers → Nat → List Bool → Trailers
  | t, _, [] => t
  | t, n, f :: fs => manageFold (Headers.manage_trailers f n t) (n + 1) fs

/-- Re-index a `Trailers` value by `n` positions. -/
def shiftTrailers (n : Nat) : Trailers → Trailers
  | Trailers.noTrailers => Trailers.noTrailers
  | Trailers.mixed => Trailers.mixed
  | Trailers.tail k => Trailers.tail (n + k)

end Headers

/-! ## Session manager builder (`src/wtx/src/http/session/session_manager_builder.rs`) -/

/-- `SameSite` -/
inductive SameSite where
  | lax
  | strictSite
  | noneSite
  deriving DecidableEq, Repr

/-- `CookieGeneric`: the cookie definition held by the builder. Time values
(`expire`, `max_age`) are abstracted to `Option Nat`. -/
structure CookieGeneric where
  domain : List Nat
  expire : Option Nat
  http_only : Bool
  max_age : Option Nat
  name : List Nat
  path : List Nat
  same_site : Option SameSite
  secure : Bool
  value : List Nat
  deriving DecidableEq, Repr

/-- `SessionManagerBuilder` -/
structure SessionManagerBuilder where
  cookie_def : CookieGeneric
  inspection_interval : Nat
  deriving DecidableEq, Repr

namespace SessionManagerBuilder

/-- `SessionManagerBuilder::new`: cookie name `"id"` (bytes 105,100), path
`"/"` (byte 47), `SameSite::Strict`, `http_only`, `secure`, thirty-minute
inspection interval (in seconds). -/
def new : SessionManagerBuilder :=
  { cookie_def :=
      { domain := []
        expire := none
        http_only := true
        max_age := none
        name := [105, 100]
        path := [47]
        same_site := some SameSite.strictSite
        secure := true
        value := [] }
    inspection_interval := 60 * 30 }

/-- `SessionManagerBuilder::domain` -/
def domain (b : SessionManagerBuilder) (elem : List Nat) : SessionManagerBuilder :=
  { b with cookie_def := { b.cookie_def with domain := elem } }

/-- `SessionManagerBuilder::path`. The source writes the argument into
`cookie_def.domain`: `self.cookie_def.domain = elem`. -/
def path (b : SessionManagerBuilder) (elem : List Nat) : SessionManagerBuilder :=
  { b with cookie_def := { b.cookie_def with domain := elem } }

end SessionManagerBuilder

end Http

/-! ## PostgreSQL authentication parsing
(`src/wtx/src/database/client/postgres/authentication.rs`) -/

namespace Pg

/-- `Authentication<'bytes>` -/
inductive Authentication where
  /-- `Authentication::Ok` -/
  | authOk
  /-- `Authentication::Md5Password` (4 salt bytes) -/
  | md5Password (salt : List Nat)
  /-- `Authentication::Sasl` -/
  | sasl (body : List Nat)
  /-- `Authentication::SaslContinue { iterations, payload, nonce, salt }` -/
  | saslContinue (iterations : Nat) (payload nonce salt : List Nat)
  /-- `Authentication::SaslFinal` -/
  | saslFinal (verifier : List Nat)
  deriving DecidableEq, Repr

/-- The effect of Rust `rest.split(|b| *b == b',')` (comma byte 44): the
chunks between comma bytes, at least one (possibly empty) chunk. -/
def splitComma : List Nat → List (List Nat)
  | [] => [[]]
  | b :: rest =>
    let r := splitComma rest
    if b = 44 then [] :: r
    else
      match r with
      | chunk :: tails => (b :: chunk) :: tails
      | [] => [[b]]

/-- Modelled from the spec: `_atoi` (the decimal parser in `crate::misc`,
whose source is not in the verified tree). The spec requires the iteration
field to be "the decimal value of the i field" parsed into a `u32`; empty
input or a non-digit byte fails, as does overflow past `u32::MAX`. -/
def _atoi (bs : List Nat) : Except Err Nat :=
  if bs.isEmpty then Except.error Err.InvalidDecimal
  else if bs.all (fun b => 48 ≤ b ∧ b ≤ 57) then
    let v := bs.foldl (fun acc b => acc * 10 + (b - 48)) 0
    if v < 2 ^ 32 then Except.ok v else Except.error Err.InvalidDecimal
  else Except.error Err.InvalidDecimal

/-- The `while let Some([key, _, local_rest @ ..]) = iter.next()` loop of the
SASL-Continue arm: scans the comma chunks, keeping the last `i`/`r`/`s`
assignment; a chunk shorter than two bytes ends the loop. The `i` field is
parsed with `_atoi` immediately, propagating its error. Key bytes: `i` = 105,
`r` = 114, `s` = 115. -/
def scanSaslFields :
    List (List Nat) → Option Nat → Option (List Nat) → Option (List Nat) →
    Except Err (Option Nat × Option (List Nat) × Option (List Nat))
  | [], its, r, s => Except.ok (its, r, s)
  | (key :: _ :: tail) :: rest, its, r, s =>
    if key = 105 then
      match _atoi tail with
      | Except.error e => Except.error e
      | Except.ok v => scanSaslFields rest (some v) r s
    else if key = 114 then scanSaslFields rest its (some tail) s
    else if key = 115 then scanSaslFields rest its r (some tail)
    else scanSaslFields rest its r s
  | _ :: _, its, r, s => Except.ok (its, r, s)

/-- The `while let Some([b'v', _, local_rest @ ..]) = iter.next()` loop of the
SASL-Final arm (`v` = 118): it also stops at the first chunk that does not
start with `v`. -/
def scanVerifier : List (List Nat) → Option (List Nat) → Option (List Nat)
  | [], acc => acc
  | (118 :: _ :: tail) :: rest, _ => scanVerifier rest (some tail)
  | _ :: _, acc => acc

/-- Big-endian 32-bit value of four octets. -/
def be32 (a b c d : Nat) : Nat := ((a * 256 + b) * 256 + c) * 256 + d

/-- `TryFrom<&[u8]> for Authentication`: dispatch on the first four big-endian
bytes, then parse the subtype body. -/
def authentication_try_from (bytes : List Nat) : Except Err Authentication :=
  match bytes with
  | a :: b :: c :: d :: rest =>
    let n := be32 a b c d
    if n = 0 then Except.ok Authentication.authOk
    else if n = 5 then
      if rest.length = 4 then Except.ok (Authentication.md5Password rest)
      else Except.error Err.TryIntoArrayFailure
    else if n = 10 then Except.ok (Authentication.sasl rest)
    else if n = 11 then
      match scanSaslFields (splitComma rest) none none none with
      | Except.error e => Except.error e
      | Except.ok (its, r, s) =>
        match its with
        | none => Except.error (Err.NoInnerValue fieldIterations)
        | some iterations =>
          match r with
          | none => Except.error (Err.NoInnerValue fieldNonce)
          | some nonce =>
            match s with
            | none => Except.error (Err.NoInnerValue fieldSalt)
            | some salt =>
              Except.ok (Authentication.saslContinue iterations rest nonce salt)
    else if n = 12 then
      match scanVerifier (splitComma rest) none with
      | none => Except.error (Err.NoInnerValue fieldVerifier)
      | some verifier => Except.ok (Authentication.saslFinal verifier)
    else Except.error Err.UnexpectedValueFromBytes
  | _ => Except.error Err.UnexpectedValueFromBytes

/-! ## Partitioned filled buffer and the message fetch loop
(`src/wtx/src/database/client/postgres/executor/fetch.rs`)

`PartitionedFilledBuffer` itself and `_read_until` are not part of the
verified tree (only their callers are), so the buffer state and those two
operations are modelled from the spec (§3.1, §4.A, §4.D); the fetch functions
below them are translated from `fetch.rs`. The stream is modelled as the list
of byte chunks successive `Stream::read` calls deliver; an exhausted list
means every further read returns zero bytes. -/

/-- Modelled from the spec: `PartitionedFilledBuffer` (§3.1). `data` is the
filled byte arena (its length is the capacity, all elements initialized); the
three indices partition it into antecedent `[0, antecedent_end)`, current
`[antecedent_end, current_end)` and following `[current_end, following_end)`
zones. Bytes read from the stream land in the following zone, so a read
extends `following_end`. -/
structure PFBuf where
  data : List Nat
  antecedent_end : Nat
  current_end : Nat
  following_end : Nat
  deriving DecidableEq, Repr

namespace PFBuf

/-- `_following_len` -/
def following_len (b : PFBuf) : Nat := b.following_end - b.current_end

/-- Modelled from the spec: `set_indices(new_antecedent_end, current_len,
following_len)` atomically re-partitions; it must satisfy the ordering
invariant (§4.A), i.e. the new `following_end` may not pass the capacity,
otherwise `UnexpectedBufferState`. -/
def set_indices (b : PFBuf) (antecedent_end current_len following_len : Nat) :
    Except Err PFBuf :=
  let ce := antecedent_end + current_len
  let fe := ce + following_len
  if fe ≤ b.data.length then
    Except.ok { b with antecedent_end := antecedent_end, current_end := ce, following_end := fe }
  else Except.error Err.UnexpectedBufferState

/-- Overwrite `l` with `c` starting at position `pos` (callers keep
`pos + c.length` within `l.length`). -/
def writeAt (l : List Nat) (pos : Nat) (c : List Nat) : List Nat :=
  l.take pos ++ c ++ l.drop (pos + c.length)

/-- One `stream.read(nb._following_trail_mut().get_mut(read..))` call: the
chunk is truncated to the space left after position `current_end + read` of
the arena, written there, and the following zone extends over it. Returns the
new buffer and the new `read` count. -/
def readInto (b : PFBuf) (read : Nat) (chunk : List Nat) : PFBuf × Nat :=
  let pos := b.current_end + read
  let c := chunk.take (b.data.length - pos)
  ({ b with data := writeAt b.data pos c, following_end := pos + c.length },
    read + c.length)

/-- Modelled from the spec: `_read_until` (in `crate::misc`, not in the
verified tree): keep issuing reads until at least `target` bytes sit in the
following trail; `none` when the stream list is exhausted first. -/
def readUntil (target : Nat) :
    PFBuf → Nat → List (List Nat) → Option (PFBuf × Nat × List (List Nat))
  | b, read, [] => if target ≤ read then some (b, read, []) else none
  | b, read, c :: rest =>
    if target ≤ read then some (b, read, c :: rest)
    else
      let p := readInto b read c
      readUntil target p.1 p.2 rest

/-- Modelled from the spec: `_expand_following(n)` grows the arena (zero
filled) so the following zone can hold `n` bytes from `current_end` on;
indices are untouched (§4.D step 2). -/
def expand_following (b : PFBuf) (n : Nat) : PFBuf :=
  if b.data.length < b.current_end + n then
    { b with data := b.data ++ List.replicate (b.current_end + n - b.data.length) 0 }
  else b

/-- `fetch_one_header_from_stream`: read until five bytes (tag plus big-endian
length) sit in the following trail; the returned length is
`length.wrapping_add(1)`, the whole message size including the tag byte. -/
def fetch_one_header_from_stream (b : PFBuf) (read : Nat) (s : List (List Nat)) :
    Option ((Nat × Nat) × (PFBuf × Nat × List (List Nat))) :=
  match readUntil 5 b read s with
  | none => none
  | some (b1, read1, s1) =>
    let trail := b1.data.drop b1.current_end
    let mt := trail.getD 0 0
    let len := be32 (trail.getD 1 0) (trail.getD 2 0) (trail.getD 3 0) (trail.getD 4 0) + 1
    some ((mt, len), (b1, read1, s1))

/-- The output of the payload loop: final buffer, accumulated `read`,
remaining stream chunks, number of `stream.read` calls made, and the
`is_payload_filled` flag. -/
structure StepOut where
  buf : PFBuf
  read : Nat
  stream : List (List Nat)
  calls : Nat
  filled : Bool
  deriving DecidableEq, Repr

/-- The `for _ in 0..len` loop of `fetch_one_payload_from_stream`: each
iteration first tests `read >= len` (setting `is_payload_filled` and
breaking), otherwise issues one read. The first argument of the recursion is
the remaining iteration budget, initially `len`. -/
def payloadSteps (len : Nat) : Nat → PFBuf → Nat → List (List Nat) → StepOut
  | 0, b, read, s => ⟨b, read, s, 0, false⟩
  | k + 1, b, read, s =>
    if len ≤ read then ⟨b, read, s, 0, true⟩
    else
      match s with
      | [] =>
        let r := payloadSteps len k b read []
        { r with calls := r.calls + 1 }
      | c :: rest =>
        let p := readInto b read c
        let r := payloadSteps len k p.1 p.2 rest
        { r with calls := r.calls + 1 }

/-- `fetch_one_payload_from_stream`: expand the following zone to the message
length, run at most `len` reads, and fail with `UnexpectedBufferState` when
the payload was not filled. -/
def fetch_one_payload_from_stream (len : Nat) (b : PFBuf) (read : Nat)
    (s : List (List Nat)) : Except Err StepOut :=
  let out := payloadSteps len len (b.expand_following len) read s
  if out.filled then Except.ok out else Except.error Err.UnexpectedBufferState

/-- `fetch_one_msg_from_stream`: header, payload, then
`set_indices(current_end, len, read - len)`. Besides the tag the model also
returns the final buffer, the total bytes accumulated in the trail and the
remaining stream. The `read.wrapping_sub(len)` of the source cannot underflow
because the payload loop only succeeds with `len ≤ read`. -/
def fetch_one_msg_from_stream (b : PFBuf) (s : List (List Nat)) :
    Except Err (Nat × PFBuf × Nat × List (List Nat)) :=
  match fetch_one_header_from_stream b b.following_len s with
  | none => Except.error Err.UnexpectedBufferState
  | some ((ty, len), (b1, read1, s1)) =>
    match fetch_one_payload_from_stream len b1 read1 s1 with
    | Except.error e => Except.error e
    | Except.ok out =>
      match out.buf.set_indices out.buf.current_end len (out.read - len) with
      | Except.error e => Except.error e
      | Except.ok b3 => Except.ok (ty, b3, out.read, out.stream)

end PFBuf

/-! ## Executor response loops (`src/wtx/src/database/client/postgres/executor.rs`
and `executor/fetch.rs`)

`MessageTy` and its `TryFrom` live in `message.rs`, which is not part of the
verified tree; they are modelled from the spec (§4.E, §7): parsing an
`ErrorResponse` fails with the structured database error. The loops
themselves are translated from the source. The stream is modelled at message
granularity: the list of backend messages that successive
`fetch_msg_from_stream` calls deliver. -/

/-- The wire-level backend messages relevant to the response loops. -/
inductive BackendMsg where
  /-- `DataRow`: the value count from the message and the row bytes handed to
  `Record::parse` (the current-message bytes after the 7 header bytes) -/
  | dataRow (len : Nat) (payload : List Nat)
  /-- `CommandComplete(rows)` -/
  | commandComplete (rows : Nat)
  /-- `EmptyQueryResponse` -/
  | emptyQueryResponse
  /-- `ReadyForQuery` -/
  | readyForQuery
  /-- `ErrorResponse` -/
  | errorResponse (fields : List Nat)
  /-- `ParseComplete`: a representative of the messages the loops treat as
  unexpected -/
  | parseComplete
  deriving DecidableEq, Repr

/-- The tag byte of a backend message. -/
def tagOf : BackendMsg → Nat
  | BackendMsg.dataRow _ _ => 68
  | BackendMsg.commandComplete _ => 67
  | BackendMsg.emptyQueryResponse => 73
  | BackendMsg.readyForQuery => 90
  | BackendMsg.errorResponse _ => 69
  | BackendMsg.parseComplete => 49

/-- `MessageTy`, the parsed message type the loops match on. -/
inductive MessageTy where
  | DataRow (len : Nat)
  | CommandComplete (rows : Nat)
  | EmptyQueryResponse
  | ReadyForQuery
  | ParseComplete
  deriving DecidableEq, Repr

/-- Modelled from the spec: `MessageTy::try_from((is_closed, current_bytes))`
(`message.rs` is not in the verified tree). Per §4.E and §7, an
`ErrorResponse` parses to the structured database error, which
`fetch_msg_from_stream` propagates. -/
def msgTyOf : BackendMsg → Except Err MessageTy
  | BackendMsg.dataRow len _ => Except.ok (MessageTy.DataRow len)
  | BackendMsg.commandComplete rows => Except.ok (MessageTy.CommandComplete rows)
  | BackendMsg.emptyQueryResponse => Except.ok MessageTy.EmptyQueryResponse
  | BackendMsg.readyForQuery => Except.ok MessageTy.ReadyForQuery
  | BackendMsg.errorResponse _ => Except.error Err.StructuredDbError
  | BackendMsg.parseComplete => Except.ok MessageTy.ParseComplete

/-- The payload a `DataRow` message carries (empty for other messages). -/
def dataPayload : BackendMsg → List Nat
  | BackendMsg.dataRow _ p => p
  | _ => []

/-- The consume loop of `execute_with_stmt` (executor.rs lines 151-161):
latch `CommandComplete` row counts, break on `ReadyForQuery`, skip `DataRow`
and `EmptyQueryResponse`, fail on anything else. Returns the result together
with the messages left unconsumed. -/
def executeLoop : List BackendMsg → Nat → Except Err Nat × List BackendMsg
  | [], _ => (Except.error Err.UnexpectedBufferState, [])
  | m :: rest, rows =>
    match msgTyOf m with
    | Except.error e => (Except.error e, rest)
    | Except.ok (MessageTy.CommandComplete local_rows) => executeLoop rest local_rows
    | Except.ok MessageTy.ReadyForQuery => (Except.ok rows, rest)
    | Except.ok (MessageTy.DataRow _) => executeLoop rest rows
    | Except.ok MessageTy.EmptyQueryResponse => executeLoop rest rows
    | Except.ok _ => (Except.error (Err.UnexpectedDatabaseMessage (tagOf m)), rest)

/-- The consume loop of `write_send_await_fetch_with_stmt_wo_prot` (fetch.rs
lines 51-61): remember the last `DataRow`, break on `ReadyForQuery`, skip
`CommandComplete` and `EmptyQueryResponse`, fail on anything else. Returns
the latched `(len, row bytes)` of the last data row together with the
messages left unconsumed. -/
def fetchLoop :
    List BackendMsg → Option (Nat × List Nat) →
    Except Err (Option (Nat × List Nat)) × List BackendMsg
  | [], _ => (Except.error Err.UnexpectedBufferState, [])
  | m :: rest, acc =>
    match msgTyOf m with
    | Except.error e => (Except.error e, rest)
    | Except.ok (MessageTy.DataRow len) => fetchLoop rest (some (len, dataPayload m))
    | Except.ok MessageTy.ReadyForQuery => (Except.ok acc, rest)
    | Except.ok (MessageTy.CommandComplete _) => fetchLoop rest acc
    | Except.ok MessageTy.EmptyQueryResponse => fetchLoop rest acc
    | Except.ok _ => (Except.error (Err.UnexpectedDatabaseMessage (tagOf m)), rest)

/-- The record selection of `write_send_await_fetch_with_stmt_wo_prot` after
its loop: `NoRecord` when no `DataRow` arrived, otherwise the `(len, bytes)`
pair of the last data row, which the source hands to `Record::parse`
(`record.rs` is outside the verified tree). -/
def fetchOneRecord (msgs : List BackendMsg) : Except Err (Nat × List Nat) :=
  match (fetchLoop msgs none).1 with
  | Except.error e => Except.error e
  | Except.ok none => Except.error Err.NoRecord
  | Except.ok (some (len, p)) => Except.ok (len, p)

/-- Messages the fetch loops consume without failing before `ReadyForQuery`. -/
def benign : BackendMsg → Bool
  | BackendMsg.dataRow _ _ => true
  | BackendMsg.commandComplete _ => true
  | BackendMsg.emptyQueryResponse => true
  | _ => false

/-- The last `DataRow` of a message list, as `(len, payload)`. -/
def lastDataRow : List BackendMsg → Option (Nat × List Nat)
  | [] => none
  | m :: rest =>
    match lastDataRow rest with
    | some x => some x
    | none =>
      match m with
      | BackendMsg.dataRow len p => some (len, p)
      | _ => none

/-- Whether a backend message is a `DataRow`. -/
def isDataRow : BackendMsg → Bool
  | BackendMsg.dataRow _ _ => true
  | _ => false

end Pg

/-! ## Theorems -/

namespace Http

namespace Headers

theorem manageFold_mixed (fs : List Bool) (n : Nat) :
    manageFold Trailers.mixed n fs = Trailers.mixed := by
  induction fs generalizing n with
  | nil => rfl
  | cons f fs ih =>
    cases f <;> simp [manageFold, Headers.manage_trailers, ih]

theorem manageFold_tail (fs : List Bool) (m n : Nat) :
    manageFold (Trailers.tail m) n fs =
      if fs.all (fun b => b) then Trailers.tail m else Trailers.mixed := by
  induction fs generalizing n with
  | nil => rfl
  | cons f fs ih =>
    cases f with
    | false => simp [manageFold, Headers.manage_trailers, manageFold_mixed]
    | true => simp [manageFold, Headers.manage_trailers, ih]

theorem manageFold_eq_topology (fs : List Bool) (n : Nat) :
    manageFold Trailers.noTrailers n fs = shiftTrailers n (trailerTopology fs) := by
  induction fs generalizing n with
  | nil => rfl
  | cons f fs ih =>
    cases f with
    | false =>
      have hm : Headers.manage_trailers false n Trailers.noTrailers =
          Trailers.noTrailers := by simp [Headers.manage_trailers]
      simp only [manageFold, hm, trailerTopology]
      rw [ih (n + 1)]
      cases trailerTopology fs with
      | noTrailers => simp [shiftTrailers]
      | mixed => simp [shiftTrailers]
      | tail k =>
        simp only [shiftTrailers]
        congr 1
        omega
    | true =>
      have hm : Headers.manage_trailers true n Trailers.noTrailers =
          Trailers.tail n := by simp [Headers.manage_trailers]
      simp only [manageFold, hm, trailerTopology]
      rw [manageFold_tail]
      by_cases hall : fs.all (fun b => b) <;> simp [hall, shiftTrailers]

theorem applyPush_trailers (h : Headers) (c : PushCall) :
    (applyPush h c).trailers =
      Headers.manage_trailers c.flag h.headers_parts.length h.trailers := by
  cases c <;> rfl

theorem applyPush_parts_len (h : Headers) (c : PushCall) :
    (applyPush h c).headers_parts.length = h.headers_parts.length + 1 := by
  cases c <;> simp [applyPush, Headers.push_from_iter, Headers.push_from_fmt]

theorem applyPush_flag (h : Headers) (c : PushCall) :
    (applyPush h c).headers_parts.map HeaderParts.is_trailer =
      h.headers_parts.map HeaderParts.is_trailer ++ [c.flag] := by
  cases c <;> simp [applyPush, Headers.push_from_iter, Headers.push_from_fmt, PushCall.flag]

theorem applyPushes_trailers (h : Headers) (cs : List PushCall) :
    (applyPushes h cs).trailers =
      manageFold h.trailers h.headers_parts.length (cs.map PushCall.flag) := by
  induction cs generalizing h with
  | nil => rfl
  | cons c cs ih =>
    simp only [applyPushes, List.map_cons, manageFold]
    rw [ih, applyPush_trailers, applyPush_parts_len]

theorem applyPushes_flags (h : Headers) (cs : List PushCall) :
    (applyPushes h cs).headers_parts.map HeaderParts.is_trailer =
      h.headers_parts.map HeaderParts.is_trailer ++ cs.map PushCall.flag := by
  induction cs generalizing h with
  | nil => simp [applyPushes]
  | cons c cs ih =>
    simp only [applyPushes, List.map_cons]
    rw [ih, applyPush_flag, List.append_assoc, List.singleton_append]

theorem topology_noTrailers_of_all_false (fs : List Bool)
    (h : fs.count true = 0) : trailerTopology fs = Trailers.noTrailers := by
  induction fs with
  | nil => rfl
  | cons f fs ih =>
    cases f with
    | false =>
      simp only [List.count_cons, if_neg] at h
      simp only [trailerTopology]
      rw [ih (by omega)]
    | true => simp [List.count_cons] at h

theorem topology_tail_of_replicate (k m : Nat) (hm : 0 < m) :
    trailerTopology (List.replicate k false ++ List.replicate m true) =
      Trailers.tail k := by
  induction k with
  | zero =>
    cases m with
    | zero => omega
    | succ m =>
      have hall : (List.replicate m true).all (fun b => b) = true :=
        List.all_eq_true.mpr fun b hb => by simpa using List.eq_of_mem_replicate hb
      simp [List.replicate_succ, trailerTopology, hall]
  | succ k ih =>
    rw [List.replicate_succ, List.cons_append]
    simp only [trailerTopology]
    rw [ih]

theorem count_pos_of_topology_ne_none (fs : List Bool)
    (h : trailerTopology fs ≠ Trailers.noTrailers) : 0 < fs.count true := by
  by_contra hc
  exact h (topology_noTrailers_of_all_false fs (by omega))

theorem topology_tail_replicate_form (fs : List Bool) (k : Nat)
    (h : trailerTopology fs = Trailers.tail k) :
    k < fs.length ∧
      fs = List.replicate k false ++ List.replicate (fs.length - k) true := by
  induction fs generalizing k with
  | nil => simp [trailerTopology] at h
  | cons f fs ih =>
    cases f with
    | false =>
      simp only [trailerTopology] at h
      cases htop : trailerTopology fs with
      | noTrailers => simp [htop] at h
      | mixed => simp [htop] at h
      | tail j =>
        simp only [htop] at h
        have hk : k = j + 1 := by
          cases h
          rfl
        subst hk
        obtain ⟨hlt, hform⟩ := ih j htop
        constructor
        · simp only [List.length_cons]
          omega
        · have hlen : (false :: fs).length - (j + 1) = fs.length - j := by simp
          rw [hlen]
          calc false :: fs
              = false :: (List.replicate j false ++ List.replicate (fs.length - j) true) := by
                rw [← hform]
            _ = List.replicate (j + 1) false ++ List.replicate (fs.length - j) true := by
                rw [List.replicate_succ, List.cons_append]
    | true =>
      simp only [trailerTopology] at h
      by_cases hall : fs.all (fun b => b)
      · rw [if_pos hall] at h
        have hk : k = 0 := by
          cases h
          rfl
        subst hk
        constructor
        · simp
        · have hfs : fs = List.replicate fs.length true :=
            List.eq_replicate_of_mem fun b hb => by
              simpa using List.all_eq_true.mp hall b hb
          calc true :: fs
              = true :: List.replicate fs.length true := by rw [← hfs]
            _ = List.replicate (fs.length + 1) true := by rw [List.replicate_succ]
            _ = List.replicate 0 false ++ List.replicate ((true :: fs).length - 0) true := by
                simp
      · rw [if_neg hall] at h
        cases h

theorem topology_count_of_noTrailers (fs : List Bool)
    (h : trailerTopology fs = Trailers.noTrailers) : fs.count true = 0 := by
  induction fs with
  | nil => rfl
  | cons f fs ih =>
    cases f with
    | false =>
      simp only [trailerTopology] at h
      cases htop : trailerTopology fs with
      | noTrailers =>
        simp [List.count_cons, ih htop]
      | mixed => simp [htop] at h
      | tail j => simp [htop] at h
    | true =>
      simp only [trailerTopology] at h
      by_cases hall : fs.all (fun b => b) <;> simp [hall] at h

theorem shiftTrailers_zero (t : Trailers) : shiftTrailers 0 t = t := by
  cases t <;> simp [shiftTrailers]

theorem trailers_of_pushes (calls : List PushCall) :
    (applyPushes new calls).trailers = trailerTopology (calls.map PushCall.flag) := by
  rw [applyPushes_trailers]
  show manageFold Trailers.noTrailers 0 (calls.map PushCall.flag) = _
  rw [manageFold_eq_topology, shiftTrailers_zero]

/-- C4: for every `Headers` value built from `new` by any sequence of
`push_from_iter`/`push_from_fmt` calls, the stored `is_trailer` flags are the
flags of the pushed headers in order, and `trailers()` classifies them: no
trailer pushed gives `None`; the trailers forming exactly one non-empty
contiguous suffix starting at index `k` gives `Tail k`; anything else gives
`Mixed`. -/
theorem c4_trailer_topology (calls : List PushCall) :
    (applyPushes new calls).headers_parts.map HeaderParts.is_trailer =
        calls.map PushCall.flag ∧
    ((calls.map PushCall.flag).count true = 0 →
      (applyPushes new calls).trailers = Trailers.noTrailers) ∧
    (∀ k, k < calls.length →
      calls.map PushCall.flag =
        List.replicate k false ++ List.replicate (calls.length - k) true →
      (applyPushes new calls).trailers = Trailers.tail k) ∧
    (0 < (calls.map PushCall.flag).count true →
      (∀ k, k ≤ calls.length →
        calls.map PushCall.flag ≠
          List.replicate k false ++ List.replicate (calls.length - k) true) →
      (applyPushes new calls).trailers = Trailers.mixed) := by
  refine ⟨?_, ?_, ?_, ?_⟩
  · rw [applyPushes_flags]
    rfl
  · intro hcount
    rw [trailers_of_pushes]
    exact topology_noTrailers_of_all_false _ hcount
  · intro k hk hform
    rw [trailers_of_pushes, hform]
    have hlen : calls.length = (calls.map PushCall.flag).length := by simp
    exact topology_tail_of_replicate k (calls.length - k) (by omega)
  · intro hcount hforms
    rw [trailers_of_pushes]
    cases htop : trailerTopology (calls.map PushCall.flag) with
    | noTrailers =>
      have := topology_count_of_noTrailers _ htop
      omega
    | mixed => rfl
    | tail k =>
      obtain ⟨hlt, hform⟩ := topology_tail_replicate_form _ k htop
      have hlen : (calls.map PushCall.flag).length = calls.length := by simp
      rw [hlen] at hlt hform
      exact absurd hform (hforms k (by omega))

/-- Witness for C4 at the spec scenario: pushing non-trailer, trailer,
non-trailer yields `Mixed`, and pushing non-trailer then two trailers yields
`Tail 1`. -/
theorem c4_trailer_topology_witness :
    (applyPushes new
        [PushCall.fromIter ⟨false, false, [97], [[120]]⟩,
         PushCall.fromIter ⟨false, true, [98], [[121]]⟩,
         PushCall.fromFmt ⟨false, false, [99], [122]⟩]).trailers =
      Trailers.mixed ∧
    (applyPushes new
        [PushCall.fromFmt ⟨false, false, [97], [120]⟩,
         PushCall.fromIter ⟨false, true, [98], [[121]]⟩,
         PushCall.fromIter ⟨true, true, [99], [[122]]⟩]).trailers =
      Trailers.tail 1 :=
  ⟨(c4_trailer_topology _).2.2.2 (by decide) (by decide),
    (c4_trailer_topology _).2.2.1 1 (by decide) (by decide)⟩

/-- C6: evaluation of `get_many_by_name` at a failing input. The store holds
one header named `a` (97) with value `v` (118); the requested names are
`x` (120) and `a`. Per-name first-match semantics require
`[none, some (a-header)]`, but the source's `iter().zip(&mut rslt)` loop
pairs header 0 with slot 0, so slot 0 (requested name `x`) receives the
header named `a` and slot 1 (requested name `a`) receives nothing. -/
theorem c6_get_many_by_name_zip :
    get_many_by_name (push_from_iter new ⟨false, false, [97], [[118]]⟩)
        [[120], [97]] =
      [some ⟨false, false, [97], [118]⟩, none] := by decide

theorem byteSlice_append (l m : List Nat) (a b : Nat) (hb : b ≤ l.length) :
    byteSlice (l ++ m) a b = byteSlice l a b := by
  unfold byteSlice
  by_cases hab : a ≤ b
  · rw [if_pos ⟨hab, by simp only [List.length_append]; omega⟩, if_pos ⟨hab, hb⟩,
      List.take_append_of_le_length hb]
  · rw [if_neg (by omega), if_neg (by omega)]

theorem byteSlice_name_part (bytes name v : List Nat) :
    byteSlice (bytes ++ name ++ v) bytes.length (bytes.length + name.length) =
      name := by
  unfold byteSlice
  rw [if_pos ⟨Nat.le_add_right _ _, by simp only [List.length_append]; omega⟩]
  have h1 : bytes.length + name.length = (bytes ++ name).length := by simp
  rw [h1, List.take_left ((bytes ++ name)) v, List.drop_left bytes name]

theorem byteSlice_value_part (bytes name v : List Nat) :
    byteSlice (bytes ++ name ++ v)
      (bytes.length + name.length) (bytes.length + (name.length + v.length)) =
        v := by
  unfold byteSlice
  rw [if_pos ⟨by omega, by simp only [List.length_append]; omega⟩]
  have h1 : (bytes ++ name ++ v).take (bytes.length + (name.length + v.length)) =
      bytes ++ name ++ v := by
    apply List.take_of_length_le
    simp only [List.length_append]
    omega
  rw [h1]
  have h2 : bytes.length + name.length = (bytes ++ name).length := by simp
  rw [h2, List.drop_left (bytes ++ name) v]

theorem mapParts_append (bytes m : List Nat) (hp : HeaderParts)
    (hwf : hp.header_begin ≤ hp.header_name_end ∧
      hp.header_name_end ≤ hp.header_end ∧ hp.header_end ≤ bytes.length) :
    mapParts (bytes ++ m) hp = mapParts bytes hp := by
  unfold mapParts
  rw [byteSlice_append _ _ _ _ (by omega), byteSlice_append _ _ _ _ (by omega)]

theorem iter_push_from_iter (h : Headers) (hd : Header (List (List Nat)))
    (hwf : wf h = true) :
    (push_from_iter h hd).iter = h.iter ++ [pushedView hd] := by
  have hsum : (hd.value.map List.length).sum = hd.value.flatten.length :=
    (List.length_flatten hd.value).symm
  unfold iter push_from_iter
  simp only [List.map_append, List.map_cons, List.map_nil]
  congr 1
  · apply List.map_congr_left
    intro hp hmem
    have hw := List.all_eq_true.mp hwf hp hmem
    simp only [Bool.and_eq_true, decide_eq_true_eq] at hw
    rw [List.append_assoc]
    exact mapParts_append h.bytes _ hp ⟨hw.1.1, hw.1.2, hw.2⟩
  · have hname := byteSlice_name_part h.bytes hd.name hd.value.flatten
    have hvalue := byteSlice_value_part h.bytes hd.name hd.value.flatten
    unfold mapParts pushedView
    simp only []
    rw [hsum]
    rw [hname, hvalue]

/-- C7 counterexample: the claim as stated fails when a header with the same
name is already present. With a header `a` (97) holding value `x` (120)
already stored, pushing `a` with value `y` (121) and then calling
`get_by_name(a)` returns the earlier header, whose value `x` differs from the
pushed bytes `y`. -/
theorem c7_push_get_cex :
    get_by_name
        (push_from_iter (push_from_iter new ⟨false, false, [97], [[120]]⟩)
          ⟨false, false, [97], [[121]]⟩) [97] =
      some ⟨false, false, [97], [120]⟩ ∧ ([120] : List Nat) ≠ [121] := by
  decide

/-- C7 (amended): provided the store is well formed and holds no header named
`name`, pushing `Header{name, value}` with `push_from_iter` and then calling
`get_by_name(name)` yields a header whose name is `name` and whose value is
the concatenation of the pushed byte slices. -/
theorem c7_push_get_round_trip (h : Headers) (hd : Header (List (List Nat)))
    (hwf : wf h = true) (hfresh : get_by_name h hd.name = none) :
    get_by_name (push_from_iter h hd) hd.name = some (pushedView hd) := by
  unfold get_by_name at hfresh ⊢
  rw [iter_push_from_iter h hd hwf, List.find?_append, hfresh]
  simp [pushedView]

/-- Witness for C7 at a concrete input: pushing name `a` (97) with value
slices `va` and `l` into the empty store and reading it back. -/
theorem c7_push_get_round_trip_witness :
    get_by_name (push_from_iter new ⟨false, false, [97], [[118, 97], [108]]⟩)
        [97] =
      some ⟨false, false, [97], [118, 97, 108]⟩ := by
  exact c7_push_get_round_trip new ⟨false, false, [97], [[118, 97], [108]]⟩
    (by decide) (by decide)

/-- C8: `pop` on an empty store returns `false` and changes nothing; on a
non-empty store it returns `true`, drops exactly the last header
(`headers_len` decreases by one, `bytes_len` by that header's recorded
`header_len`, which public-API stores keep within `bytes_len`); and in both
cases the `Trailers` field is left exactly as it was, never recomputed. -/
theorem c8_pop (h : Headers) :
    (h.headers_parts = [] → pop h = (false, h)) ∧
    (pop h).2.trailers = h.trailers ∧
    (∀ hp, h.headers_parts.getLast? = some hp →
      hp.header_len ≤ h.bytes.length →
      (pop h).1 = true ∧
      (pop h).2.headers_len + 1 = h.headers_len ∧
      (pop h).2.bytes_len + hp.header_len = h.bytes_len) := by
  cases hl : h.headers_parts.getLast? with
  | none =>
    refine ⟨fun _ => by simp [pop, hl], by simp [pop, hl], ?_⟩
    intro hp hsome
    simp at hsome
  | some hp =>
    have hne : h.headers_parts ≠ [] := by
      intro hnil
      rw [hnil] at hl
      cases hl
    refine ⟨fun hnil => absurd hnil hne, by simp [pop, hl], ?_⟩
    intro hp' hsome hle
    cases hsome
    refine ⟨by simp [pop, hl], ?_, ?_⟩
    · have hlen : 0 < h.headers_parts.length := List.length_pos.mpr hne
      simp only [pop, hl, headers_len, List.length_dropLast]
      omega
    · simp only [pop, hl, bytes_len, List.length_take]
      omega

/-- Witness for C8: popping a one-header store and popping the empty store. -/
theorem c8_pop_witness :
    (pop (push_from_iter new ⟨false, true, [97], [[120]]⟩)).1 = true ∧
    (pop (push_from_iter new ⟨false, true, [97], [[120]]⟩)).2.trailers =
      (push_from_iter new ⟨false, true, [97], [[120]]⟩).trailers ∧
    pop new = (false, new) := by
  refine ⟨?_, (c8_pop _).2.1, (c8_pop new).1 (by decide)⟩
  exact ((c8_pop (push_from_iter new ⟨false, true, [97], [[120]]⟩)).2.2
    ⟨0, 2, 2, 1, false, true⟩ (by decide) (by decide)).1

end Headers

/-- C9: the `SessionManagerBuilder::path` setter writes its argument into the
cookie definition's `domain` field and leaves the `path` field untouched; in
particular a builder starting from `new` retains the default path `/`
(byte 47). -/
theorem c9_path_writes_domain (b : Http.SessionManagerBuilder) (e : List Nat) :
    (b.path e).cookie_def.domain = e ∧
    (b.path e).cookie_def.path = b.cookie_def.path ∧
    (Http.SessionManagerBuilder.new.path e).cookie_def.path = [47] :=
  ⟨rfl, rfl, rfl⟩

end Http

namespace Pg

theorem splitComma_no_comma (a : List Nat) (ha : (44 : Nat) ∉ a) :
    splitComma a = [a] := by
  induction a with
  | nil => rfl
  | cons b a ih =>
    have hb : b ≠ 44 := by
      intro hb
      exact ha (by simp [hb])
    have ha' : (44 : Nat) ∉ a := fun hmem => ha (by simp [hmem])
    simp only [splitComma, ih ha', if_neg hb]

theorem splitComma_append (a t : List Nat) (ha : (44 : Nat) ∉ a) :
    splitComma (a ++ 44 :: t) = a :: splitComma t := by
  induction a with
  | nil => simp [splitComma]
  | cons b a ih =>
    have hb : b ≠ 44 := by
      intro hb
      exact ha (by simp [hb])
    have ha' : (44 : Nat) ∉ a := fun hmem => ha (by simp [hmem])
    simp only [List.cons_append, splitComma, List.append_eq, ih ha', if_neg hb]

/-- C5: parsing an `R` body whose first four big-endian bytes are 11 and whose
remainder carries comma-separated `r=`, `s=`, `i=` fields yields
`SaslContinue` with the decimal `i` value as iterations, the raw `s` bytes as
salt and the full `r` value as nonce (the payload is the whole remainder);
and a body missing one of the three fields fails with `NoInnerValue` naming
that field (bytes: `,` 44, `=` 61, `i` 105, `r` 114, `s` 115). -/
theorem c5_sasl_continue_parse (r s idig : List Nat) (v : Nat)
    (hr : (44 : Nat) ∉ r) (hs : (44 : Nat) ∉ s) (hi : (44 : Nat) ∉ idig)
    (hv : _atoi idig = Except.ok v) :
    authentication_try_from
        (0 :: 0 :: 0 :: 11 ::
          ((114 :: 61 :: r) ++ 44 :: (115 :: 61 :: s) ++ 44 :: (105 :: 61 :: idig))) =
      Except.ok
        (Authentication.saslContinue v
          ((114 :: 61 :: r) ++ 44 :: (115 :: 61 :: s) ++ 44 :: (105 :: 61 :: idig))
          r s) ∧
    authentication_try_from
        (0 :: 0 :: 0 :: 11 :: ((114 :: 61 :: r) ++ 44 :: (115 :: 61 :: s))) =
      Except.error (Err.NoInnerValue fieldIterations) ∧
    authentication_try_from
        (0 :: 0 :: 0 :: 11 :: ((115 :: 61 :: s) ++ 44 :: (105 :: 61 :: idig))) =
      Except.error (Err.NoInnerValue fieldNonce) ∧
    authentication_try_from
        (0 :: 0 :: 0 :: 11 :: ((114 :: 61 :: r) ++ 44 :: (105 :: 61 :: idig))) =
      Except.error (Err.NoInnerValue fieldSalt) := by
  have hrf : (44 : Nat) ∉ 114 :: 61 :: r := by simp [hr]
  have hsf : (44 : Nat) ∉ 115 :: 61 :: s := by simp [hs]
  have hif : (44 : Nat) ∉ 105 :: 61 :: idig := by simp [hi]
  refine ⟨?_, ?_, ?_, ?_⟩
  · unfold authentication_try_from
    norm_num [be32]
    rw [show 114 :: 61 :: (r ++ 44 :: 115 :: 61 :: (s ++ 44 :: 105 :: 61 :: idig)) =
        (114 :: 61 :: r) ++ 44 :: ((115 :: 61 :: s) ++ 44 :: (105 :: 61 :: idig)) by
      simp]
    rw [splitComma_append _ _ hrf, splitComma_append _ _ hsf,
      splitComma_no_comma _ hif]
    simp [scanSaslFields, hv]
  · unfold authentication_try_from
    norm_num [be32]
    rw [show 114 :: 61 :: (r ++ 44 :: 115 :: 61 :: s) =
        (114 :: 61 :: r) ++ 44 :: (115 :: 61 :: s) by simp]
    rw [splitComma_append _ _ hrf, splitComma_no_comma _ hsf]
    simp [scanSaslFields]
  · unfold authentication_try_from
    norm_num [be32]
    rw [show 115 :: 61 :: (s ++ 44 :: 105 :: 61 :: idig) =
        (115 :: 61 :: s) ++ 44 :: (105 :: 61 :: idig) by simp]
    rw [splitComma_append _ _ hsf, splitComma_no_comma _ hif]
    simp [scanSaslFields, hv]
  · unfold authentication_try_from
    norm_num [be32]
    rw [show 114 :: 61 :: (r ++ 44 :: 105 :: 61 :: idig) =
        (114 :: 61 :: r) ++ 44 :: (105 :: 61 :: idig) by simp]
    rw [splitComma_append _ _ hrf, splitComma_no_comma _ hif]
    simp [scanSaslFields, hv]

/-- Witness for C5 at the spec scenario: `r=<nonce>,s=QSXCR+Q6sek8bf92,i=4096`
(nonce bytes spell `abcDEF`, salt bytes spell `QSXCR+Q6sek8bf92`), producing
iterations 4096, that salt, and the full r value as nonce. -/
theorem c5_sasl_continue_parse_witness :
    authentication_try_from
        (0 :: 0 :: 0 :: 11 ::
          ((114 :: 61 :: [97, 98, 99, 68, 69, 70]) ++ 44 ::
            (115 :: 61 ::
              [81, 83, 88, 67, 82, 43, 81, 54, 115, 101, 107, 56, 98, 102, 57, 50]) ++
            44 :: (105 :: 61 :: [52, 48, 57, 54]))) =
      Except.ok
        (Authentication.saslContinue 4096
          ((114 :: 61 :: [97, 98, 99, 68, 69, 70]) ++ 44 ::
            (115 :: 61 ::
              [81, 83, 88, 67, 82, 43, 81, 54, 115, 101, 107, 56, 98, 102, 57, 50]) ++
            44 :: (105 :: 61 :: [52, 48, 57, 54]))
          [97, 98, 99, 68, 69, 70]
          [81, 83, 88, 67, 82, 43, 81, 54, 115, 101, 107, 56, 98, 102, 57, 50]) := by
  exact (c5_sasl_continue_parse [97, 98, 99, 68, 69, 70]
      [81, 83, 88, 67, 82, 43, 81, 54, 115, 101, 107, 56, 98, 102, 57, 50]
      [52, 48, 57, 54] 4096 (by decide) (by decide) (by decide) (by rfl)).1

end Pg

namespace Pg

namespace PFBuf

theorem writeAt_length (l : List Nat) (pos : Nat) (c : List Nat)
    (h : pos + c.length ≤ l.length) : (writeAt l pos c).length = l.length := by
  unfold writeAt
  simp only [List.length_append, List.length_take, List.length_drop]
  omega

theorem readInto_snd (b : PFBuf) (read : Nat) (c : List Nat) :
    (b.readInto read c).2 =
      read + (c.take (b.data.length - (b.current_end + read))).length := rfl

theorem readInto_ae (b : PFBuf) (read : Nat) (c : List Nat) :
    (b.readInto read c).1.antecedent_end = b.antecedent_end := rfl

theorem readInto_ce (b : PFBuf) (read : Nat) (c : List Nat) :
    (b.readInto read c).1.current_end = b.current_end := rfl

theorem readInto_fe (b : PFBuf) (read : Nat) (c : List Nat) :
    (b.readInto read c).1.following_end =
      b.current_end + read +
        (c.take (b.data.length - (b.current_end + read))).length := rfl

theorem take_sub_length_le (c : List Nat) (m : Nat) :
    (c.take m).length ≤ m := by
  simp [List.length_take]

theorem readInto_len (b : PFBuf) (read : Nat) (c : List Nat)
    (hpos : b.current_end + read ≤ b.data.length) :
    (b.readInto read c).1.data.length = b.data.length := by
  show (writeAt b.data (b.current_end + read)
      (c.take (b.data.length - (b.current_end + read)))).length = b.data.length
  apply writeAt_length
  have := take_sub_length_le c (b.data.length - (b.current_end + read))
  omega

theorem readInto_spec (b : PFBuf) (read : Nat) (c : List Nat)
    (hpos : b.current_end + read ≤ b.data.length) :
    (b.readInto read c).1.antecedent_end = b.antecedent_end ∧
    (b.readInto read c).1.current_end = b.current_end ∧
    (b.readInto read c).1.data.length = b.data.length ∧
    (b.readInto read c).1.following_end = b.current_end + (b.readInto read c).2 ∧
    read ≤ (b.readInto read c).2 ∧
    b.current_end + (b.readInto read c).2 ≤ b.data.length := by
  have h2 := readInto_snd b read c
  have hfe := readInto_fe b read c
  have htk := take_sub_length_le c (b.data.length - (b.current_end + read))
  refine ⟨readInto_ae b read c, readInto_ce b read c, readInto_len b read c hpos,
    ?_, ?_, ?_⟩
  · rw [hfe, h2]
    omega
  · rw [h2]
    omega
  · rw [h2]
    omega

theorem readUntil_spec (target : Nat) (s : List (List Nat)) :
    ∀ (b : PFBuf) (read : Nat) (b1 : PFBuf) (read1 : Nat) (s1 : List (List Nat)),
    b.following_end = b.current_end + read →
    b.current_end + read ≤ b.data.length →
    readUntil target b read s = some (b1, read1, s1) →
    b1.antecedent_end = b.antecedent_end ∧ b1.current_end = b.current_end ∧
    b1.data.length = b.data.length ∧
    b1.following_end = b.current_end + read1 ∧
    read ≤ read1 ∧ target ≤ read1 ∧ b.current_end + read1 ≤ b.data.length := by
  induction s with
  | nil =>
    intro b read b1 read1 s1 hfe hpos h
    unfold readUntil at h
    by_cases ht : target ≤ read
    · rw [if_pos ht] at h
      cases h
      exact ⟨rfl, rfl, rfl, hfe, Nat.le_refl _, ht, hpos⟩
    · rw [if_neg ht] at h
      cases h
  | cons c rest ih =>
    intro b read b1 read1 s1 hfe hpos h
    unfold readUntil at h
    by_cases ht : target ≤ read
    · rw [if_pos ht] at h
      cases h
      exact ⟨rfl, rfl, rfl, hfe, Nat.le_refl _, ht, hpos⟩
    · rw [if_neg ht] at h
      obtain ⟨hae, hce, hlen, hfe', hle, hps⟩ := readInto_spec b read c hpos
      obtain ⟨g1, g2, g3, g4, g5, g6, g7⟩ :=
        ih (b.readInto read c).1 (b.readInto read c).2 b1 read1 s1
          (by rw [hfe', hce]) (by rw [hce, hlen]; exact hps) h
      refine ⟨g1.trans hae, g2.trans hce, g3.trans hlen, ?_, by omega, g6, ?_⟩
      · rw [g4, hce]
      · rw [hce, hlen] at g7
        exact g7

theorem payloadSteps_base (len : Nat) (b : PFBuf) (read : Nat)
    (s : List (List Nat)) : payloadSteps len 0 b read s = ⟨b, read, s, 0, false⟩ :=
  rfl

theorem payloadSteps_done (len k : Nat) (b : PFBuf) (read : Nat)
    (s : List (List Nat)) (h : len ≤ read) :
    payloadSteps len (k + 1) b read s = ⟨b, read, s, 0, true⟩ := by
  unfold payloadSteps
  rw [if_pos h]

theorem payloadSteps_calls (len : Nat) : ∀ (fuel : Nat) (b : PFBuf) (read : Nat)
    (s : List (List Nat)), (payloadSteps len fuel b read s).calls ≤ fuel := by
  intro fuel
  induction fuel with
  | zero =>
    intro b read s
    rw [payloadSteps_base]
  | succ k ih =>
    intro b read s
    by_cases ht : len ≤ read
    · rw [payloadSteps_done len k b read s ht]
      exact Nat.zero_le _
    · cases s with
      | nil =>
        have := ih b read []
        simp only [payloadSteps, if_neg ht]
        omega
      | cons c rest =>
        have := ih (b.readInto read c).1 (b.readInto read c).2 rest
        simp only [payloadSteps, if_neg ht]
        omega

theorem payloadSteps_filled (len : Nat) : ∀ (fuel : Nat) (b : PFBuf) (read : Nat)
    (s : List (List Nat)), (payloadSteps len fuel b read s).filled = true →
    len ≤ (payloadSteps len fuel b read s).read := by
  intro fuel
  induction fuel with
  | zero =>
    intro b read s h
    rw [payloadSteps_base] at h
    cases h
  | succ k ih =>
    intro b read s
    by_cases ht : len ≤ read
    · rw [payloadSteps_done len k b read s ht]
      intro _
      exact ht
    · cases s with
      | nil =>
        simp only [payloadSteps, if_neg ht]
        exact ih b read []
      | cons c rest =>
        simp only [payloadSteps, if_neg ht]
        exact ih (b.readInto read c).1 (b.readInto read c).2 rest

theorem payloadSteps_spec (len : Nat) : ∀ (fuel : Nat) (b : PFBuf) (read : Nat)
    (s : List (List Nat)),
    b.following_end = b.current_end + read →
    b.current_end + read ≤ b.data.length →
    (payloadSteps len fuel b read s).buf.antecedent_end = b.antecedent_end ∧
    (payloadSteps len fuel b read s).buf.current_end = b.current_end ∧
    (payloadSteps len fuel b read s).buf.data.length = b.data.length ∧
    (payloadSteps len fuel b read s).buf.following_end =
      b.current_end + (payloadSteps len fuel b read s).read ∧
    read ≤ (payloadSteps len fuel b read s).read ∧
    b.current_end + (payloadSteps len fuel b read s).read ≤ b.data.length := by
  intro fuel
  induction fuel with
  | zero =>
    intro b read s hfe hpos
    rw [payloadSteps_base]
    exact ⟨rfl, rfl, rfl, hfe, Nat.le_refl _, hpos⟩
  | succ k ih =>
    intro b read s hfe hpos
    by_cases ht : len ≤ read
    · rw [payloadSteps_done len k b read s ht]
      exact ⟨rfl, rfl, rfl, hfe, Nat.le_refl _, hpos⟩
    · cases s with
      | nil =>
        simp only [payloadSteps, if_neg ht]
        exact ih b read [] hfe hpos
      | cons c rest =>
        simp only [payloadSteps, if_neg ht]
        obtain ⟨hae, hce, hlen, hfe', hle, hps⟩ := readInto_spec b read c hpos
        obtain ⟨g1, g2, g3, g4, g5, g6⟩ :=
          ih (b.readInto read c).1 (b.readInto read c).2 rest
            (by rw [hfe', hce]) (by rw [hce, hlen]; exact hps)
        refine ⟨g1.trans hae, g2.trans hce, g3.trans hlen, ?_, by omega, ?_⟩
        · rw [g4, hce]
        · rw [hce, hlen] at g6
          exact g6

theorem expand_following_spec (b : PFBuf) (n : Nat) :
    (b.expand_following n).antecedent_end = b.antecedent_end ∧
    (b.expand_following n).current_end = b.current_end ∧
    (b.expand_following n).following_end = b.following_end ∧
    b.data.length ≤ (b.expand_following n).data.length ∧
    b.current_end + n ≤ (b.expand_following n).data.length := by
  unfold expand_following
  by_cases h : b.data.length < b.current_end + n
  · rw [if_pos h]
    refine ⟨rfl, rfl, rfl, ?_, ?_⟩
    · simp only [List.length_append, List.length_replicate]
      omega
    · simp only [List.length_append, List.length_replicate]
      omega
  · rw [if_neg h]
    exact ⟨rfl, rfl, rfl, Nat.le_refl _, by omega⟩

/-- C10: for every buffer, initial read count and stream, the payload loop of
`fetch_one_payload_from_stream` issues at most `len` read calls (and, being a
bounded loop, always terminates, also when every read returns zero bytes);
and when fewer than `len` bytes have accumulated by then the function returns
`UnexpectedBufferState` instead of looping further or reporting success. -/
theorem c10_payload_fetch_bounded (len : Nat) (b : PFBuf) (read : Nat)
    (s : List (List Nat)) :
    (payloadSteps len len (b.expand_following len) read s).calls ≤ len ∧
    ((payloadSteps len len (b.expand_following len) read s).read < len →
      fetch_one_payload_from_stream len b read s =
        Except.error Err.UnexpectedBufferState) := by
  refine ⟨payloadSteps_calls len len _ read s, ?_⟩
  intro hlt
  unfold fetch_one_payload_from_stream
  cases hfill : (payloadSteps len len (b.expand_following len) read s).filled with
  | false => rw [if_neg (by rw [hfill]; exact Bool.false_ne_true)]
  | true =>
    have := payloadSteps_filled len len (b.expand_following len) read s hfill
    omega

/-- Witness for C10: a three-byte payload against a stream that always
returns zero bytes makes exactly three read calls and fails with
`UnexpectedBufferState`. -/
theorem c10_payload_fetch_bounded_witness :
    (payloadSteps 3 3 ((PFBuf.mk [] 0 0 0).expand_following 3) 0 []).calls ≤ 3 ∧
    fetch_one_payload_from_stream 3 (PFBuf.mk [] 0 0 0) 0 [] =
      Except.error Err.UnexpectedBufferState :=
  ⟨(c10_payload_fetch_bounded 3 (PFBuf.mk [] 0 0 0) 0 []).1,
    (c10_payload_fetch_bounded 3 (PFBuf.mk [] 0 0 0) 0 []).2 (by decide)⟩

/-- C1: when `fetch_one_msg_from_stream` succeeds on a message whose header
carries the big-endian length field `L` (so the fetched size is `1 + L`
including the tag byte), the committed indices satisfy: the new
`antecedent_end` is the old `current_end`; the new `current_end` is the old
`current_end + 1 + L`; and the `tot - (1 + L)` surplus bytes read beyond the
message boundary stay in the following zone, whose end sits exactly at the
point the reads reached (the commit step does not move it), `tot` being every
byte accumulated in the trail. -/
theorem c1_fetch_one_msg_indices (b : PFBuf) (s : List (List Nat))
    (ty L : Nat) (b1 : PFBuf) (read1 : Nat) (s1 : List (List Nat))
    (b' : PFBuf) (tot : Nat) (s' : List (List Nat))
    (hce : b.current_end ≤ b.following_end)
    (hfe : b.following_end ≤ b.data.length)
    (hhdr : fetch_one_header_from_stream b b.following_len s =
      some ((ty, L + 1), (b1, read1, s1)))
    (hok : fetch_one_msg_from_stream b s = Except.ok (ty, b', tot, s')) :
    b'.antecedent_end = b.current_end ∧
    b'.current_end = b.current_end + 1 + L ∧
    1 + L ≤ tot ∧
    b'.following_end = b'.current_end + (tot - (1 + L)) ∧
    b.following_end ≤ b'.following_end := by
  have hru : readUntil 5 b b.following_len s = some (b1, read1, s1) := by
    unfold fetch_one_header_from_stream at hhdr
    cases h5 : readUntil 5 b b.following_len s with
    | none => rw [h5] at hhdr; cases hhdr
    | some x =>
      rw [h5] at hhdr
      cases hhdr
      rfl
  have hfl : b.following_end = b.current_end + b.following_len := by
    unfold following_len
    omega
  obtain ⟨r1, r2, r3, r4, r5, r6, r7⟩ :=
    readUntil_spec 5 s b b.following_len b1 read1 s1 hfl (by omega) hru
  unfold fetch_one_msg_from_stream at hok
  rw [hhdr] at hok
  dsimp only at hok
  cases hpl : fetch_one_payload_from_stream (L + 1) b1 read1 s1 with
  | error e => rw [hpl] at hok; cases hok
  | ok out =>
    rw [hpl] at hok
    dsimp only at hok
    have hout : out = payloadSteps (L + 1) (L + 1) (b1.expand_following (L + 1))
        read1 s1 ∧ out.filled = true := by
      unfold fetch_one_payload_from_stream at hpl
      by_cases hf : (payloadSteps (L + 1) (L + 1) (b1.expand_following (L + 1))
          read1 s1).filled = true
      · rw [if_pos hf] at hpl
        cases hpl
        exact ⟨rfl, hf⟩
      · rw [if_neg hf] at hpl
        cases hpl
    obtain ⟨e1, e2, e3, e4, e5⟩ := expand_following_spec b1 (L + 1)
    obtain ⟨p1, p2, p3, p4, p5, p6⟩ :=
      payloadSteps_spec (L + 1) (L + 1) (b1.expand_following (L + 1)) read1 s1
        (by rw [e3, e2, r4, r2]) (by rw [e2, r2]; omega)
    have hfill2 : (L + 1) ≤ out.read := by
      rw [hout.1]
      exact payloadSteps_filled (L + 1) (L + 1) _ read1 s1 (hout.1 ▸ hout.2)
    have hob : out.buf.current_end = b.current_end := by
      rw [hout.1] at *
      rw [p2, e2, r2]
    have hoblen : out.buf.data.length =
        (b1.expand_following (L + 1)).data.length := by
      rw [hout.1]
      exact p3
    have hofe : out.buf.current_end + out.read ≤ out.buf.data.length := by
      rw [hout.1, p2, p3]
      rw [hout.1] at *
      exact p6
    have hsi : out.buf.set_indices out.buf.current_end (L + 1)
        (out.read - (L + 1)) =
        Except.ok (PFBuf.mk out.buf.data out.buf.current_end
          (out.buf.current_end + (L + 1))
          (out.buf.current_end + (L + 1) + (out.read - (L + 1)))) := by
      unfold set_indices
      rw [if_pos (by omega)]
    rw [hsi] at hok
    dsimp only at hok
    have hor : out.read =
        (payloadSteps (L + 1) (L + 1) (b1.expand_following (L + 1)) read1
          s1).read := by
      rw [hout.1]
    cases hok
    dsimp only
    exact ⟨hob, by omega, by omega, by omega, by omega⟩

/-- Witness for C1: a sixteen-byte arena receives one chunk holding a
complete message, tag `Z` (90) with length field 5 and a one-byte payload;
the fetch commits `antecedent_end = 0`, `current_end = 6`,
`following_end = 6` with no surplus. -/
theorem c1_fetch_one_msg_indices_witness :
    fetch_one_msg_from_stream (PFBuf.mk (List.replicate 16 0) 0 0 0)
        [[90, 0, 0, 0, 5, 73]] =
      Except.ok (90, PFBuf.mk
        [90, 0, 0, 0, 5, 73, 0, 0, 0, 0, 0, 0, 0, 0, 0, 0] 0 6 6, 6,
        ([] : List (List Nat))) ∧
    (PFBuf.mk [90, 0, 0, 0, 5, 73, 0, 0, 0, 0, 0, 0, 0, 0, 0, 0] 0 6 6
        ).antecedent_end = 0 ∧
    (PFBuf.mk [90, 0, 0, 0, 5, 73, 0, 0, 0, 0, 0, 0, 0, 0, 0, 0] 0 6 6
        ).current_end = 0 + 1 + 5 ∧
    (PFBuf.mk [90, 0, 0, 0, 5, 73, 0, 0, 0, 0, 0, 0, 0, 0, 0, 0] 0 6 6
        ).following_end =
      (PFBuf.mk [90, 0, 0, 0, 5, 73, 0, 0, 0, 0, 0, 0, 0, 0, 0, 0] 0 6 6
        ).current_end + (6 - (1 + 5)) := by
  refine ⟨by decide, ?_⟩
  have h := c1_fetch_one_msg_indices (PFBuf.mk (List.replicate 16 0) 0 0 0)
    [[90, 0, 0, 0, 5, 73]] 90 5
    (PFBuf.mk [90, 0, 0, 0, 5, 73, 0, 0, 0, 0, 0, 0, 0, 0, 0, 0] 0 0 6) 6 []
    (PFBuf.mk [90, 0, 0, 0, 5, 73, 0, 0, 0, 0, 0, 0, 0, 0, 0, 0] 0 6 6) 6 []
    (by decide) (by decide) (by decide) (by decide)
  exact ⟨h.1, h.2.1, h.2.2.2.1⟩

end PFBuf

end Pg

namespace Pg

theorem fetchLoop_benign (msgs : List BackendMsg) :
    ∀ acc, (∀ m ∈ msgs, benign m = true) →
    fetchLoop (msgs ++ [BackendMsg.readyForQuery]) acc =
      (Except.ok (Option.or (lastDataRow msgs) acc), []) := by
  induction msgs with
  | nil =>
    intro acc h
    simp [fetchLoop, msgTyOf, lastDataRow, Option.or]
  | cons m rest ih =>
    intro acc h
    have hm := h m (by simp)
    have hrest : ∀ x ∈ rest, benign x = true := fun x hx => h x (by simp [hx])
    cases m with
    | dataRow len p =>
      simp only [List.cons_append, fetchLoop, msgTyOf, List.append_eq]
      rw [ih (some (len, dataPayload (BackendMsg.dataRow len p))) hrest]
      cases hl : lastDataRow rest <;>
        simp [lastDataRow, hl, Option.or, dataPayload]
    | commandComplete n =>
      simp only [List.cons_append, fetchLoop, msgTyOf, List.append_eq]
      rw [ih acc hrest]
      cases hl : lastDataRow rest <;> simp [lastDataRow, hl, Option.or]
    | emptyQueryResponse =>
      simp only [List.cons_append, fetchLoop, msgTyOf, List.append_eq]
      rw [ih acc hrest]
      cases hl : lastDataRow rest <;> simp [lastDataRow, hl, Option.or]
    | readyForQuery => cases hm
    | errorResponse fields => cases hm
    | parseComplete => cases hm

theorem lastDataRow_none_iff (msgs : List BackendMsg) :
    lastDataRow msgs = none ↔ ∀ m ∈ msgs, isDataRow m = false := by
  induction msgs with
  | nil => simp [lastDataRow]
  | cons m rest ih =>
    cases hl : lastDataRow rest with
    | some x =>
      simp only [lastDataRow, hl]
      constructor
      · intro h
        exact Option.noConfusion h
      · intro hall
        have h2 : lastDataRow rest = none :=
          ih.mpr fun y hy => hall y (List.mem_cons_of_mem m hy)
        rw [h2] at hl
        cases hl
    | none =>
      have hrest := ih.mp hl
      cases m with
      | dataRow len p =>
        simp only [lastDataRow, hl]
        constructor
        · intro h
          exact Option.noConfusion h
        · intro hall
          exact absurd (hall (BackendMsg.dataRow len p) (by simp))
            (by simp [isDataRow])
      | commandComplete n =>
        simp only [lastDataRow, hl]
        constructor
        · intro _ x hx
          rcases List.mem_cons.mp hx with hx | hx
          · subst hx
            rfl
          · exact hrest x hx
        · intro _
          trivial
      | emptyQueryResponse =>
        simp only [lastDataRow, hl]
        constructor
        · intro _ x hx
          rcases List.mem_cons.mp hx with hx | hx
          · subst hx
            rfl
          · exact hrest x hx
        · intro _
          trivial
      | readyForQuery =>
        simp only [lastDataRow, hl]
        constructor
        · intro _ x hx
          rcases List.mem_cons.mp hx with hx | hx
          · subst hx
            rfl
          · exact hrest x hx
        · intro _
          trivial
      | errorResponse fields =>
        simp only [lastDataRow, hl]
        constructor
        · intro _ x hx
          rcases List.mem_cons.mp hx with hx | hx
          · subst hx
            rfl
          · exact hrest x hx
        · intro _
          trivial
      | parseComplete =>
        simp only [lastDataRow, hl]
        constructor
        · intro _ x hx
          rcases List.mem_cons.mp hx with hx | hx
          · subst hx
            rfl
          · exact hrest x hx
        · intro _
          trivial

/-- C2: over any benign response sequence terminated by `ReadyForQuery`
(data rows, command completions, empty-query responses), the record selection
of `fetch_with_stmt` fails with `NoRecord` exactly when no `DataRow` message
was received, and with at least one `DataRow` it returns exactly one record:
the `(len, bytes)` of the last `DataRow`, the pair the source hands to
`Record::parse`. -/
theorem c2_fetch_with_stmt_record (msgs : List BackendMsg)
    (h : ∀ m ∈ msgs, benign m = true) :
    (fetchOneRecord (msgs ++ [BackendMsg.readyForQuery]) =
        Except.error Err.NoRecord ↔
      ∀ m ∈ msgs, isDataRow m = false) ∧
    (∀ len p, lastDataRow msgs = some (len, p) →
      fetchOneRecord (msgs ++ [BackendMsg.readyForQuery]) =
        Except.ok (len, p)) := by
  have hfl := fetchLoop_benign msgs none h
  unfold fetchOneRecord
  rw [hfl]
  dsimp only
  rw [Option.or_none]
  constructor
  · cases hld : lastDataRow msgs with
    | none =>
      constructor
      · intro _
        exact (lastDataRow_none_iff msgs).mp hld
      · intro _
        rfl
    | some x =>
      constructor
      · intro hcon
        simp at hcon
      · intro hall
        have h2 := (lastDataRow_none_iff msgs).mpr hall
        rw [h2] at hld
        cases hld
  · intro len p hld
    rw [hld]

/-- Witness for C2: two data rows and a command completion before
`ReadyForQuery` produce the last row's pair; a lone command completion
produces `NoRecord`. -/
theorem c2_fetch_with_stmt_record_witness :
    fetchOneRecord [BackendMsg.dataRow 1 [9], BackendMsg.commandComplete 7,
        BackendMsg.dataRow 2 [5, 6], BackendMsg.readyForQuery] =
      Except.ok (2, [5, 6]) ∧
    fetchOneRecord [BackendMsg.commandComplete 0, BackendMsg.readyForQuery] =
      Except.error Err.NoRecord := by
  constructor
  · exact (c2_fetch_with_stmt_record
      [BackendMsg.dataRow 1 [9], BackendMsg.commandComplete 7,
        BackendMsg.dataRow 2 [5, 6]] (by decide)).2 2 [5, 6] (by decide)
  · exact (c2_fetch_with_stmt_record
      [BackendMsg.commandComplete 0] (by decide)).1.mpr (by decide)

/-- C3 counterexample: with the server answering `ErrorResponse` then
`ReadyForQuery`, the `execute_with_stmt` consume loop returns the structured
error with the `ReadyForQuery` message still unconsumed — the connection is
not drained, contradicting the claim that the error is returned only after
consuming up to `ReadyForQuery`. -/
theorem c3_error_drain_cex :
    executeLoop [BackendMsg.errorResponse [], BackendMsg.readyForQuery] 0 =
      (Except.error Err.StructuredDbError, [BackendMsg.readyForQuery]) ∧
    ([BackendMsg.readyForQuery] : List BackendMsg) ≠ [] := by
  decide

/-- C3 (amended): when an `ErrorResponse` arrives, the consume loops of
`execute_with_stmt` and `fetch_with_stmt` return the structured error
immediately, leaving every following message — including the terminating
`ReadyForQuery` — unconsumed. -/
theorem c3_error_returns_immediately (fields : List Nat)
    (rest : List BackendMsg) (rows : Nat) (acc : Option (Nat × List Nat)) :
    executeLoop (BackendMsg.errorResponse fields :: rest) rows =
      (Except.error Err.StructuredDbError, rest) ∧
    fetchLoop (BackendMsg.errorResponse fields :: rest) acc =
      (Except.error Err.StructuredDbError, rest) :=
  ⟨rfl, rfl⟩

end Pg

end Wtx
